import Mathlib

/-!
# Verification of the chunked-upload engine of `dropbox-toolbox`

Shallow embedding of the core data structures and control flow of the
repository:

* `CompletionTracker` (src/upload.rs) with its `complete_block` /
  `resume_from` operations; the `HashMap<u64, u64>` of buffered blocks is
  modelled as an association list with insert-replace and remove, which is
  faithful for the lookup/insert/remove operations the tracker uses.
* `ContentHash` (src/content_hash.rs), parameterised over an abstract
  256-bit hash `H` (SHA-256 is opaque to the chunking logic being verified);
  a hash context accumulating bytes is modelled as the list of bytes fed to
  it, and `finish` applies `H`.
* the append retry loop `upload_block_with_retry` (src/upload.rs), modelled
  as a recursion over a script of remote responses; sleeps are recorded as
  events (the jittered backoff sleep records the unjittered duration, since
  the jitter is random).
* the `upload` orchestration (src/upload.rs): chunking, the close-marking
  of short chunks, the final explicit empty close append, and `commit_arg`.
  The chunk dispatcher itself (the external `parallel_reader` crate) is
  modelled from the spec, and the concurrent workers are modelled as
  completing in dispatch order, which is immaterial for the claims proved
  about this part (they do not depend on completion order).
-/

namespace DropboxToolbox

/-- Constant `BLOCK_SIZE` from src/lib.rs: the fixed 4 MiB Dropbox block size. -/
def BLOCK_SIZE : Nat := 4 * 1024 * 1024

/-- Lookup of a key, as `HashMap::get`/the lookup half of `HashMap::remove`. -/
def lookupA (k : Nat) : List (Nat × Nat) → Option Nat
  | [] => none
  | p :: m => if p.1 = k then some p.2 else lookupA k m

/-- Removal of a key, as the removal half of `HashMap::remove`. -/
def eraseA (k : Nat) (m : List (Nat × Nat)) : List (Nat × Nat) :=
  m.filter (fun p => p.1 ≠ k)

/-- Operation `HashMap::insert`: the new binding replaces any existing one. -/
def insertKV (k v : Nat) (m : List (Nat × Nat)) : List (Nat × Nat) :=
  (k, v) :: eraseA k m

/-- The completion tracker: `complete_up_to` is the contiguous acknowledged
length; `uploaded_blocks` buffers blocks that completed out of order. -/
structure CompletionTracker where
  complete_up_to : Nat
  uploaded_blocks : List (Nat × Nat)
  deriving DecidableEq, Repr

/-- Constructor `CompletionTracker::default()` (`#[derive(Default)]`). -/
def CompletionTracker.mkNew : CompletionTracker := ⟨0, []⟩

/-- Constructor `CompletionTracker::resume_from`. -/
def CompletionTracker.resume_from (complete_up_to : Nat) : CompletionTracker :=
  ⟨complete_up_to, []⟩

/-- The `while let Some(len) = self.uploaded_blocks.remove(&self.complete_up_to)`
loop of `complete_block`, with an explicit recursion budget (each iteration
removes a binding, so `m.length` steps always suffice; `drainFuel_congr`
below shows the budget is irrelevant as long as it is sufficient). -/
def drainFuel : Nat → Nat → List (Nat × Nat) → Nat × List (Nat × Nat)
  | 0, c, m => (c, m)
  | fuel + 1, c, m =>
    match lookupA c m with
    | some len => drainFuel fuel (c + len) (eraseA c m)
    | none => (c, m)

/-- The drain loop of `complete_block`: repeatedly drain the buffered block
that is now contiguous with the cursor. -/
def drainLoop (c : Nat) (m : List (Nat × Nat)) : Nat × List (Nat × Nat) :=
  drainFuel m.length c m

/-- Operation `CompletionTracker::complete_block`. -/
def CompletionTracker.complete_block (t : CompletionTracker)
    (block_offset block_len : Nat) : CompletionTracker :=
  if block_offset = t.complete_up_to then
    let r := drainLoop (t.complete_up_to + block_len) t.uploaded_blocks
    ⟨r.1, r.2⟩
  else
    ⟨t.complete_up_to, insertKV block_offset block_len t.uploaded_blocks⟩

/-- Deliver a list of completed blocks (offset, length) to the tracker,
in order. -/
def processAll (t : CompletionTracker) (blocks : List (Nat × Nat)) :
    CompletionTracker :=
  blocks.foldl (fun t b => t.complete_block b.1 b.2) t

/-! ## Partitions of a byte range into blocks

`blocksFrom c ls` is the list of (offset, length) blocks partitioning
`[c, c + ls.sum)` into consecutive blocks of lengths `ls`.  A set of
non-overlapping blocks exactly covering `[0, N)` is (after sorting by
offset) exactly `blocksFrom 0 ls` for the list `ls` of its lengths, so
delivering such blocks in an arbitrary order is delivering a permutation
of `blocksFrom 0 ls`. -/
def blocksFrom : Nat → List Nat → List (Nat × Nat)
  | _, [] => []
  | c, l :: ls => (c, l) :: blocksFrom (c + l) ls

/-- Rust `slice::chunks(n)`: split into successive chunks of `n` elements, the
last possibly shorter.  (Rust panics on `n = 0`; this model returns `[]`,
and `n = BLOCK_SIZE > 0` everywhere it is used.) -/
def chunksOf (n : Nat) (l : List Nat) : List (List Nat) :=
  if h : l = [] ∨ n = 0 then []
  else l.take n :: chunksOf n (l.drop n)
termination_by l.length
decreasing_by
  push_neg at h
  obtain ⟨h1, h2⟩ := h
  have hpos : 0 < l.length := List.length_pos.mpr h1
  rw [List.length_drop]
  omega

/-- The `ContentHash` state: the outer digest context, the per-block digest
context, and the byte count of the current incomplete block (the Rust
field `partial`). -/
structure ContentHash where
  ctx : List Nat
  block_ctx : List Nat
  pLen : Nat
  deriving DecidableEq, Repr

/-- Constructor `ContentHash::new`. -/
def ContentHash.new : ContentHash := ⟨[], [], 0⟩

/-- Operation `ContentHash::finish_block`: fold the per-block context's digest into
the outer context and reset. -/
def finish_block (H : List Nat → List Nat) (s : ContentHash) : ContentHash :=
  ⟨s.ctx ++ H s.block_ctx, [], 0⟩

/-- The body of the `for block in bytes.chunks(BLOCK_SIZE)` loop of
`ContentHash::update`. -/
def updChunk (H : List Nat → List Nat) (s : ContentHash) (block : List Nat) :
    ContentHash :=
  let s' : ContentHash := ⟨s.ctx, s.block_ctx ++ block, s.pLen⟩
  if block.length < BLOCK_SIZE then ⟨s'.ctx, s'.block_ctx, block.length⟩
  else finish_block H s'

/-- The `for block in bytes.chunks(BLOCK_SIZE)` loop of
`ContentHash::update`. -/
def updateChunks (H : List Nat → List Nat) (s : ContentHash)
    (bytes : List Nat) : ContentHash :=
  (chunksOf BLOCK_SIZE bytes).foldl (updChunk H) s

/-- Operation `ContentHash::update`. -/
def update (H : List Nat → List Nat) (s : ContentHash) (bytes : List Nat) :
    ContentHash :=
  if s.pLen ≠ 0 then
    let pNeeded := BLOCK_SIZE - s.pLen
    let first := if pNeeded < bytes.length then bytes.take pNeeded
      else bytes
    let rem := if pNeeded < bytes.length then bytes.drop pNeeded
      else []
    let s1 : ContentHash := ⟨s.ctx, s.block_ctx ++ first, s.pLen + first.length⟩
    if s1.pLen = BLOCK_SIZE then updateChunks H (finish_block H s1) rem
    else s1
  else updateChunks H s bytes

/-- Operation `ContentHash::finish`: fold any non-empty partial block, then produce
the outer digest. -/
def finish (H : List Nat → List Nat) (s : ContentHash) : List Nat :=
  if s.pLen ≠ 0 then H ((finish_block H s).ctx) else H s.ctx

/-- Reference form of the block-hash stream: the concatenated digests of
all the complete `BLOCK_SIZE` blocks of `bytes`. -/
def blockHashes (H : List Nat → List Nat) (bytes : List Nat) : List Nat :=
  if h : BLOCK_SIZE ≤ bytes.length then
    H (bytes.take BLOCK_SIZE) ++ blockHashes H (bytes.drop BLOCK_SIZE)
  else []
termination_by bytes.length
decreasing_by
  rw [List.length_drop]
  have hB : 0 < BLOCK_SIZE := by norm_num [BLOCK_SIZE]
  omega

/-- Reference form of the trailing incomplete block of `bytes`. -/
def remBytes (bytes : List Nat) : List Nat :=
  if h : BLOCK_SIZE ≤ bytes.length then remBytes (bytes.drop BLOCK_SIZE)
  else bytes
termination_by bytes.length
decreasing_by
  rw [List.length_drop]
  have hB : 0 < BLOCK_SIZE := by norm_num [BLOCK_SIZE]
  omega

/-- A response of the remote to one append call. -/
inductive AppendResult where
  | ok : AppendResult
  | rateLimited (reason : Nat) (retry_after_seconds : Nat) : AppendResult
  | err (e : Nat) : AppendResult
  deriving DecidableEq, Repr

/-- A sleep performed by the retry loop. -/
inductive SleepEvent where
  | rateLimit (seconds : Nat) : SleepEvent
  | backoff (unjittered : Nat) : SleepEvent
  deriving DecidableEq, Repr

/-- How a run of the retry loop ended: success, failure with the surfaced
error, or still running when the response script ran out. -/
inductive LoopOutcome where
  | success : LoopOutcome
  | failed (e : Nat) : LoopOutcome
  | pending : LoopOutcome
  deriving DecidableEq, Repr

/-- Observable trace of one run of the retry loop. -/
structure LoopRun where
  attempts : Nat
  events : List SleepEvent
  outcome : LoopOutcome
  deriving DecidableEq, Repr

def U32 : Nat := 2 ^ 32

/-- The retry loop of `upload_block_with_retry`, with the mutable state
`(errors, backoff)` threaded explicitly and the remote call answered by the
head of the script.  Mirrors src/upload.rs lines 260-293: `Ok` breaks;
`RateLimited` sleeps the server-specified delay (when positive) and retries
without touching `errors` or `backoff`; any other error increments
`errors`, failing when it reaches `retry_count`, otherwise sleeps the
jittered backoff and doubles the backoff if it is still below
`max_backoff_time`. -/
def runLoop (retry_count max_backoff : Nat) :
    Nat → Nat → List AppendResult → LoopRun
  | _, _, [] => ⟨0, [], .pending⟩
  | errors, backoff, r :: rest =>
    match r with
    | .ok => ⟨1, [], .success⟩
    | .rateLimited _ n =>
      let k := runLoop retry_count max_backoff errors backoff rest
      ⟨k.attempts + 1, (if 0 < n then [SleepEvent.rateLimit n] else []) ++ k.events,
        k.outcome⟩
    | .err e =>
      if (errors + 1) % U32 = retry_count then ⟨1, [], .failed e⟩
      else
        let k := runLoop retry_count max_backoff ((errors + 1) % U32)
          (if backoff < max_backoff then 2 * backoff else backoff) rest
        ⟨k.attempts + 1, SleepEvent.backoff backoff :: k.events, k.outcome⟩

/-- The cursor of `files::UploadSessionCursor`. -/
structure UploadSessionCursor where
  session_id : Nat
  offset : Nat
  deriving DecidableEq, Repr

/-- The fields of `files::UploadSessionAppendArg` relevant here. -/
structure UploadSessionAppendArg where
  offset : Nat
  close : Bool
  deriving DecidableEq, Repr

/-- One invocation of `upload_block_with_retry`: its append argument plus
the length of the data buffer passed with it. -/
structure AppendCall where
  arg : UploadSessionAppendArg
  len : Nat
  deriving DecidableEq, Repr

/-- Struct `SessionInner` (src/upload.rs lines 84-89). -/
structure SessionInner where
  session_id : Nat
  start_offset : Nat
  bytes_transferred : Nat
  completion : CompletionTracker
  deriving DecidableEq, Repr

/-- The state built by `UploadSession::new` (session id assigned remotely). -/
def SessionInner.mkNew (session_id : Nat) : SessionInner :=
  ⟨session_id, 0, 0, CompletionTracker.mkNew⟩

/-- The state built by `UploadSession::resume`. -/
def SessionInner.resume (session_id start_offset : Nat) : SessionInner :=
  ⟨session_id, start_offset, 0, CompletionTracker.resume_from start_offset⟩

/-- Operation `SessionInner::append_arg`: the cursor offset is
`start_offset + block_offset`; `close` defaults to `false`. -/
def SessionInner.append_arg (s : SessionInner) (block_offset : Nat) :
    UploadSessionAppendArg :=
  ⟨s.start_offset + block_offset, false⟩

/-- Operation `SessionInner::commit_arg`: the finish cursor, whose offset (the
declared total size) is `bytes_transferred`. -/
def SessionInner.commit_arg (s : SessionInner) : UploadSessionCursor :=
  ⟨s.session_id, s.bytes_transferred⟩

/-- Operation `SessionInner::mark_block_uploaded`. -/
def SessionInner.mark_block_uploaded (s : SessionInner)
    (block_offset block_len : Nat) : SessionInner :=
  { s with completion :=
      s.completion.complete_block (s.start_offset + block_offset) block_len }

/-- Operation `SessionInner::complete_up_to`. -/
def SessionInner.complete_up_to (s : SessionInner) : Nat :=
  s.completion.complete_up_to

/-- Modelled from the spec: the chunk dispatcher (the external
`parallel_reader` crate, spec §4.4, missing from src/) reads the source
strictly in order and hands chunk *k*, covering bytes
`[k·chunkSize, (k+1)·chunkSize)` of the stream, to a worker together with
its byte offset; only the last chunk may be shorter than `chunkSize`. -/
def chunkFuel : Nat → Nat → Nat → List Nat → List (Nat × List Nat)
  | 0, _, _, _ => []
  | fuel + 1, cs, base, data =>
    if data = [] ∨ cs = 0 then []
    else (base, data.take cs) :: chunkFuel fuel cs (base + cs) (data.drop cs)

def chunkList (cs : Nat) (base : Nat) (data : List Nat) :
    List (Nat × List Nat) :=
  chunkFuel data.length cs base data

/-- Status of the dispatcher: all chunk workers succeeded, one failed (the
dispatcher stops issuing chunks and propagates the error), or a script ran
out while its retry loop was still running. -/
inductive DispatchStatus where
  | allOk : DispatchStatus
  | errored (e : Nat) : DispatchStatus
  | undetermined : DispatchStatus
  deriving DecidableEq, Repr

structure DispatchResult where
  inner : SessionInner
  closed : Bool
  calls : List AppendCall
  status : DispatchStatus
  deriving DecidableEq, Repr

/-- The per-chunk closure of `UploadSession::upload` (src/upload.rs lines
150-177), folded over the chunks in order: build the append argument,
marking it closing (and setting the shared `closed` flag) when the chunk is
shorter than the full chunk size; run the append with retry; on success add
the chunk length to `bytes_transferred` and report the block to the
completion tracker; on failure stop dispatching and propagate. -/
def runChunks (rc mB b0 cs : Nat) :
    SessionInner → Bool → List ((Nat × List Nat) × List AppendResult) →
    DispatchResult
  | inner, closed, [] => ⟨inner, closed, [], .allOk⟩
  | inner, closed, (chunk, script) :: rest =>
    let closeFlag := chunk.2.length != cs
    let closed' := closed || closeFlag
    let call : AppendCall :=
      ⟨⟨inner.start_offset + chunk.1, closeFlag⟩, chunk.2.length⟩
    let out := (runLoop rc mB 0 b0 script).outcome
    if out = .success then
      let inner' : SessionInner :=
        { inner with
          bytes_transferred := inner.bytes_transferred + chunk.2.length,
          completion := inner.completion.complete_block
            (inner.start_offset + chunk.1) chunk.2.length }
      let r := runChunks rc mB b0 cs inner' closed' rest
      ⟨r.inner, r.closed, call :: r.calls, r.status⟩
    else
      ⟨inner, closed', [call],
        match out with
        | .failed e => .errored e
        | _ => .undetermined⟩

/-- Result of `UploadSession::upload`. -/
inductive UploadResult where
  | ok (bytes : Nat) : UploadResult
  | error (e : Nat) : UploadResult
  | undetermined : UploadResult
  deriving DecidableEq, Repr

structure UploadRun where
  inner : SessionInner
  calls : List AppendCall
  result : UploadResult
  deriving DecidableEq, Repr

/-- Function `UploadSession::upload` (src/upload.rs lines 138-208): dispatch the
chunks (chunk size `BLOCK_SIZE * blocks_per_request`); on dispatch failure
return the error; otherwise read `final_len = complete_up_to()` and, if no
chunk was marked closing, issue one empty append with `close = true` built
by `append_arg(final_len)` — a failure of this close append is only logged
— and return `Ok(final_len)`. -/
def uploadModel (rc mB b0 blocks_per_request : Nat) (inner0 : SessionInner)
    (data : List Nat) (scripts : List (List AppendResult))
    (closeScript : List AppendResult) : UploadRun :=
  let cs := BLOCK_SIZE * blocks_per_request
  let chunks := chunkList cs 0 data
  let r := runChunks rc mB b0 cs inner0 false (chunks.zip scripts)
  match r.status with
  | .errored e => ⟨r.inner, r.calls, .error e⟩
  | .undetermined => ⟨r.inner, r.calls, .undetermined⟩
  | .allOk =>
    let final_len := r.inner.complete_up_to
    if !r.closed then
      let closeCall : AppendCall :=
        ⟨⟨r.inner.start_offset + final_len, true⟩, 0⟩
      match (runLoop rc mB 0 b0 closeScript).outcome with
      | .pending => ⟨r.inner, r.calls ++ [closeCall], .undetermined⟩
      | _ => ⟨r.inner, r.calls ++ [closeCall], .ok final_len⟩
    else ⟨r.inner, r.calls, .ok final_len⟩

/-- The chunks of a list, paired with their offsets, are consecutive: each
chunk starts where the previous one ended. -/
def ConsecutiveFrom : Nat → List (Nat × List Nat) → Prop
  | _, [] => True
  | o, c :: rest => c.1 = o ∧ ConsecutiveFrom (o + c.2.length) rest

/-! ## Theorems -/

theorem BLOCK_SIZE_pos : 0 < BLOCK_SIZE := by norm_num [BLOCK_SIZE]

theorem lookupA_some_mem {k v : Nat} : ∀ {m : List (Nat × Nat)},
    lookupA k m = some v → (k, v) ∈ m := by
  intro m
  induction m with
  | nil => intro h; simp [lookupA] at h
  | cons p m ih =>
    intro h
    by_cases hp : p.1 = k
    · have hv : p.2 = v := by simpa [lookupA, hp] using h
      have hpkv : p = (k, v) := by cases p; simp_all
      rw [← hpkv]
      exact List.mem_cons_self _ _
    · simp only [lookupA, hp, if_false] at h
      exact List.mem_cons.mpr (Or.inr (ih h))

theorem lookupA_eq_none {k : Nat} : ∀ {m : List (Nat × Nat)},
    (∀ p ∈ m, p.1 ≠ k) → lookupA k m = none := by
  intro m
  induction m with
  | nil => intro _; rfl
  | cons p m ih =>
    intro h
    have hp : p.1 ≠ k := h p (by simp)
    simp only [lookupA, hp, if_false]
    exact ih (fun q hq => h q (by simp [hq]))

theorem lookupA_none_forall {k : Nat} : ∀ {m : List (Nat × Nat)},
    lookupA k m = none → ∀ p ∈ m, p.1 ≠ k := by
  intro m
  induction m with
  | nil => intro _ p hp; simp at hp
  | cons q m ih =>
    intro h p hp
    by_cases hq : q.1 = k
    · simp [lookupA, hq] at h
    · rcases List.mem_cons.mp hp with rfl | hp'
      · exact hq
      · exact ih (by simpa [lookupA, hq] using h) p hp'

theorem eraseA_cons (p : Nat × Nat) (m : List (Nat × Nat)) (k : Nat) :
    eraseA k (p :: m) = if p.1 = k then eraseA k m else p :: eraseA k m := by
  by_cases hp : p.1 = k <;> simp [eraseA, List.filter_cons, hp]

theorem eraseA_length_lt {k v : Nat} : ∀ {m : List (Nat × Nat)},
    lookupA k m = some v → (eraseA k m).length < m.length := by
  intro m
  induction m with
  | nil => intro h; simp [lookupA] at h
  | cons p m ih =>
    intro h
    by_cases hp : p.1 = k
    · rw [eraseA_cons, if_pos hp]
      calc (eraseA k m).length ≤ m.length := List.length_filter_le _ _
        _ < (p :: m).length := by simp
    · simp only [lookupA, hp, if_false] at h
      rw [eraseA_cons, if_neg hp]
      simpa using Nat.succ_lt_succ (ih h)

theorem eraseA_eq_self {k : Nat} {m : List (Nat × Nat)}
    (h : ∀ p ∈ m, p.1 ≠ k) : eraseA k m = m :=
  List.filter_eq_self.mpr (fun p hp => by simpa using h p hp)

theorem mem_eraseA {k : Nat} {m : List (Nat × Nat)} {p : Nat × Nat}
    (h : p ∈ eraseA k m) : p ∈ m ∧ p.1 ≠ k := by
  have := List.mem_filter.mp h
  simpa using this

/-- If the keys of `m` have no duplicates and `(k, v) ∈ m`, then removing key
`k` removes exactly that binding. -/
theorem cons_eraseA_perm {k v : Nat} : ∀ {m : List (Nat × Nat)},
    (m.map Prod.fst).Nodup → (k, v) ∈ m → ((k, v) :: eraseA k m).Perm m := by
  intro m
  induction m with
  | nil => intro _ h; simp at h
  | cons q m ih =>
    intro hnd hm
    have hnd' : (m.map Prod.fst).Nodup := (List.nodup_cons.mp (by simpa using hnd)).2
    have hq1 : q.1 ∉ m.map Prod.fst := (List.nodup_cons.mp (by simpa using hnd)).1
    by_cases hqk : q.1 = k
    · -- the head is the binding for k
      have hq : q = (k, v) := by
        rcases List.mem_cons.mp hm with h | h
        · exact h.symm
        · exfalso
          apply hq1
          rw [hqk]
          exact List.mem_map.mpr ⟨(k, v), h, rfl⟩
      subst hq
      have hrest : ∀ p ∈ m, p.1 ≠ k := by
        intro p hp hpk
        apply hq1
        simp only [hqk]
        rw [← hpk]
        exact List.mem_map.mpr ⟨p, hp, rfl⟩
      rw [eraseA_cons, if_pos hqk, eraseA_eq_self hrest]
    · have hm' : (k, v) ∈ m := by
        rcases List.mem_cons.mp hm with h | h
        · exact absurd (congrArg Prod.fst h.symm) hqk
        · exact h
      rw [eraseA_cons, if_neg hqk]
      exact (List.Perm.swap q (k, v) (eraseA k m)).trans ((ih hnd' hm').cons q)

theorem drainFuel_congr : ∀ (f1 f2 c : Nat) (m : List (Nat × Nat)),
    m.length ≤ f1 → m.length ≤ f2 → drainFuel f1 c m = drainFuel f2 c m := by
  intro f1
  induction f1 with
  | zero =>
    intro f2 c m h1 _
    have hm : m = [] := List.eq_nil_of_length_eq_zero (Nat.le_zero.mp h1)
    subst hm
    cases f2 with
    | zero => rfl
    | succ f2 => rfl
  | succ f1 ih =>
    intro f2 c m h1 h2
    cases hl : lookupA c m with
    | none =>
      cases f2 with
      | zero =>
        have hm : m = [] := List.eq_nil_of_length_eq_zero (Nat.le_zero.mp h2)
        subst hm
        rfl
      | succ f2 =>
        show (match lookupA c m with
          | some len => drainFuel f1 (c + len) (eraseA c m)
          | none => (c, m)) =
          (match lookupA c m with
          | some len => drainFuel f2 (c + len) (eraseA c m)
          | none => (c, m))
        rw [hl]
    | some len =>
      have hmem : (c, len) ∈ m := lookupA_some_mem hl
      have hlt : (eraseA c m).length < m.length := eraseA_length_lt hl
      have hne : m ≠ [] := by
        intro hm
        subst hm
        simp at hmem
      cases f2 with
      | zero =>
        exfalso
        have := List.length_pos.mpr hne
        omega
      | succ f2 =>
        show (match lookupA c m with
          | some len => drainFuel f1 (c + len) (eraseA c m)
          | none => (c, m)) =
          (match lookupA c m with
          | some len => drainFuel f2 (c + len) (eraseA c m)
          | none => (c, m))
        rw [hl]
        exact ih f2 (c + len) (eraseA c m) (by omega) (by omega)

theorem drainLoop_none {c : Nat} {m : List (Nat × Nat)}
    (h : lookupA c m = none) : drainLoop c m = (c, m) := by
  unfold drainLoop
  cases hf : m.length with
  | zero => rfl
  | succ f =>
    show (match lookupA c m with
      | some len => drainFuel f (c + len) (eraseA c m)
      | none => (c, m)) = (c, m)
    rw [h]

theorem drainLoop_some {c len : Nat} {m : List (Nat × Nat)}
    (h : lookupA c m = some len) :
    drainLoop c m = drainLoop (c + len) (eraseA c m) := by
  have hmem : (c, len) ∈ m := lookupA_some_mem h
  have hlt : (eraseA c m).length < m.length := eraseA_length_lt h
  have hne : m ≠ [] := by
    intro hm
    subst hm
    simp at hmem
  unfold drainLoop
  cases hf : m.length with
  | zero =>
    exfalso
    have := List.length_pos.mpr hne
    omega
  | succ f =>
    show (match lookupA c m with
      | some len' => drainFuel f (c + len') (eraseA c m)
      | none => (c, m)) = drainFuel (eraseA c m).length (c + len) (eraseA c m)
    rw [h]
    exact drainFuel_congr f (eraseA c m).length (c + len) (eraseA c m)
      (by omega) (Nat.le_refl _)

/-- The cursor never moves backwards in the drain loop. -/
theorem drainLoop_le : ∀ (n : Nat) (m : List (Nat × Nat)) (c : Nat),
    m.length ≤ n → c ≤ (drainLoop c m).1 := by
  intro n
  induction n with
  | zero =>
    intro m c hm
    have : m = [] := List.eq_nil_of_length_eq_zero (Nat.le_zero.mp hm)
    subst this
    rw [drainLoop_none (by rfl)]
  | succ n ih =>
    intro m c hm
    cases hl : lookupA c m with
    | none => rw [drainLoop_none hl]
    | some len =>
      rw [drainLoop_some hl]
      have h1 : (eraseA c m).length ≤ n :=
        Nat.lt_succ_iff.mp (Nat.lt_of_lt_of_le (eraseA_length_lt hl) hm)
      exact Nat.le_trans (Nat.le_add_right c len) (ih _ _ h1)

/-- `complete_up_to` never decreases across `complete_block` calls. -/
theorem complete_block_mono (t : CompletionTracker) (off len : Nat) :
    t.complete_up_to ≤ (t.complete_block off len).complete_up_to := by
  unfold CompletionTracker.complete_block
  split
  · exact Nat.le_trans (Nat.le_add_right _ _)
      (drainLoop_le t.uploaded_blocks.length _ _ (Nat.le_refl _))
  · exact Nat.le_refl _

theorem blocksFrom_key_ge {c : Nat} : ∀ {ls : List Nat} {p : Nat × Nat},
    p ∈ blocksFrom c ls → c ≤ p.1 := by
  intro ls
  induction ls generalizing c with
  | nil => intro p hp; simp [blocksFrom] at hp
  | cons l ls ih =>
    intro p hp
    rcases List.mem_cons.mp hp with rfl | hp'
    · exact Nat.le_refl _
    · exact Nat.le_trans (Nat.le_add_right c l) (ih hp')

/-- In a partition with positive lengths, the only block whose offset is the
base offset is the head block. -/
theorem blocksFrom_head_of_key_eq {c v : Nat} {l : Nat} {ls : List Nat}
    (hpos : ∀ x ∈ l :: ls, 0 < x) (h : (c, v) ∈ blocksFrom c (l :: ls)) :
    v = l := by
  rcases List.mem_cons.mp h with h' | h'
  · simpa using congrArg Prod.snd h'
  · exfalso
    have h1 : c + l ≤ (c, v).1 := blocksFrom_key_ge h'
    have h2 : 0 < l := hpos l (by simp)
    omega

theorem blocksFrom_keys_pairwise {c : Nat} : ∀ {ls : List Nat},
    (∀ x ∈ ls, 0 < x) →
    (blocksFrom c ls).Pairwise (fun p q => p.1 < q.1) := by
  intro ls
  induction ls generalizing c with
  | nil => intro _; simp [blocksFrom]
  | cons l ls ih =>
    intro hpos
    refine List.Pairwise.cons ?_ (ih (fun x hx => hpos x (by simp [hx])))
    intro p hp
    have h1 : c + l ≤ p.1 := blocksFrom_key_ge hp
    have h2 : 0 < l := hpos l (by simp)
    omega

theorem blocksFrom_keys_nodup {c : Nat} {ls : List Nat}
    (hpos : ∀ x ∈ ls, 0 < x) :
    ((blocksFrom c ls).map Prod.fst).Nodup := by
  have h := @blocksFrom_keys_pairwise c ls hpos
  have h2 : ((blocksFrom c ls).map Prod.fst).Pairwise (fun a b => a < b) :=
    List.pairwise_map.mpr h
  exact h2.imp Nat.ne_of_lt

theorem blocksFrom_sum {c : Nat} : ∀ {ls : List Nat},
    ((blocksFrom c ls).map Prod.snd).sum = ls.sum := by
  intro ls
  induction ls generalizing c with
  | nil => simp [blocksFrom]
  | cons l ls ih => simp [blocksFrom, ih]

/-- Specification of the drain loop in terms of the structure of the
partition: starting at cursor `c`, if the buffered map together with the
not-yet-delivered blocks `rem` is a permutation of the partition
`blocksFrom c ls`, the drain loop advances past exactly the maximal
contiguous run of buffered blocks, leaving a state satisfying the same
invariant for the rest of the partition. -/
theorem drain_spec : ∀ (n : Nat) (m : List (Nat × Nat)) (c : Nat)
    (ls : List Nat) (rem : List (Nat × Nat)),
    m.length ≤ n →
    (∀ l ∈ ls, 0 < l) →
    (m ++ rem).Perm (blocksFrom c ls) →
    ∃ j m', j ≤ ls.length ∧
      drainLoop c m = (c + (ls.take j).sum, m') ∧
      (m' ++ rem).Perm (blocksFrom (c + (ls.take j).sum) (ls.drop j)) ∧
      ∀ p ∈ m', p.1 ≠ c + (ls.take j).sum := by
  intro n
  induction n with
  | zero =>
    intro m c ls rem hm hpos hperm
    have hm0 : m = [] := List.eq_nil_of_length_eq_zero (Nat.le_zero.mp hm)
    subst hm0
    refine ⟨0, [], Nat.zero_le _, ?_, ?_, by simp⟩
    · rw [drainLoop_none (by rfl)]
      simp
    · simpa using hperm
  | succ n ih =>
    intro m c ls rem hm hpos hperm
    cases hl : lookupA c m with
    | none =>
      refine ⟨0, m, Nat.zero_le _, ?_, ?_, ?_⟩
      · rw [drainLoop_none hl]
        simp
      · simpa using hperm
      · intro p hp
        simpa using lookupA_none_forall hl p hp
    | some v =>
      have hmem : (c, v) ∈ m := lookupA_some_mem hl
      have hmemP : (c, v) ∈ blocksFrom c ls :=
        hperm.mem_iff.mp (List.mem_append.mpr (Or.inl hmem))
      -- the partition cannot be empty
      cases ls with
      | nil => simp [blocksFrom] at hmemP
      | cons l ls₂ =>
        have hv : v = l := blocksFrom_head_of_key_eq hpos hmemP
        rw [hv] at hl hmem
        -- the keys of `m` have no duplicates
        have hndP : ((blocksFrom c (l :: ls₂)).map Prod.fst).Nodup :=
          blocksFrom_keys_nodup hpos
        have hnd : ((m ++ rem).map Prod.fst).Nodup :=
          (List.Perm.nodup_iff (hperm.map Prod.fst)).mpr hndP
        have hndm : (m.map Prod.fst).Nodup := by
          rw [List.map_append] at hnd
          exact (List.Nodup.of_append_left hnd)
        -- removing key c removes exactly the binding (c, l)
        have hconsperm : ((c, l) :: eraseA c m).Perm m := cons_eraseA_perm hndm hmem
        have hperm2 : (eraseA c m ++ rem).Perm (blocksFrom (c + l) ls₂) := by
          have h1 : ((c, l) :: (eraseA c m ++ rem)).Perm (m ++ rem) := by
            simpa using hconsperm.append_right rem
          have h2 : ((c, l) :: (eraseA c m ++ rem)).Perm
              ((c, l) :: blocksFrom (c + l) ls₂) := h1.trans (by simpa [blocksFrom] using hperm)
          exact h2.cons_inv
        have hlen : (eraseA c m).length ≤ n :=
          Nat.lt_succ_iff.mp (Nat.lt_of_lt_of_le (eraseA_length_lt hl) hm)
        obtain ⟨j, m', hj, hdrain, hperm3, hkeys⟩ :=
          ih (eraseA c m) (c + l) ls₂ rem hlen
            (fun x hx => hpos x (by simp [hx])) hperm2
        refine ⟨j + 1, m', by simpa using Nat.succ_le_succ hj, ?_, ?_, ?_⟩
        · rw [drainLoop_some hl, hdrain]
          simp [Nat.add_assoc]
        · simpa [Nat.add_assoc] using hperm3
        · intro p hp
          have := hkeys p hp
          simpa [Nat.add_assoc] using this

theorem processAll_nil (t : CompletionTracker) : processAll t [] = t := rfl

theorem processAll_cons (t : CompletionTracker) (b : Nat × Nat)
    (l : List (Nat × Nat)) :
    processAll t (b :: l) = processAll (t.complete_block b.1 b.2) l := rfl

/-- If there is nothing left to deliver, the invariant forces the partition
remainder to be empty and the buffer to be empty. -/
theorem tracker_nil {ls : List Nat} {t : CompletionTracker}
    (hperm : t.uploaded_blocks.Perm (blocksFrom t.complete_up_to ls))
    (hkeys : ∀ p ∈ t.uploaded_blocks, p.1 ≠ t.complete_up_to) :
    ls = [] ∧ t.uploaded_blocks = [] := by
  cases ls with
  | nil =>
    exact ⟨rfl, List.Perm.eq_nil (by simpa [blocksFrom] using hperm)⟩
  | cons l ls₂ =>
    exfalso
    have hmem : (t.complete_up_to, l) ∈ t.uploaded_blocks :=
      hperm.mem_iff.mpr (by simp [blocksFrom])
    exact hkeys _ hmem rfl

/-- The central run lemma: if the buffered blocks together with the blocks
still to be delivered form (in some order) the partition of
`[complete_up_to, complete_up_to + ls.sum)` into blocks of positive lengths
`ls`, and no buffered block sits exactly at the cursor, then delivering the
remaining blocks in the given order ends with the cursor advanced over the
whole partition and an empty buffer, every intermediate cursor bounded by
the end of the partition. -/
theorem tracker_run : ∀ (n : Nat) (rem : List (Nat × Nat)) (ls : List Nat)
    (t : CompletionTracker),
    rem.length ≤ n →
    (∀ l ∈ ls, 0 < l) →
    (t.uploaded_blocks ++ rem).Perm (blocksFrom t.complete_up_to ls) →
    (∀ p ∈ t.uploaded_blocks, p.1 ≠ t.complete_up_to) →
    (processAll t rem).complete_up_to = t.complete_up_to + ls.sum ∧
    (processAll t rem).uploaded_blocks = [] ∧
    ∀ pre rest, rem = pre ++ rest →
      (processAll t pre).complete_up_to ≤ t.complete_up_to + ls.sum := by
  intro n
  induction n with
  | zero =>
    intro rem ls t hn hpos hperm hkeys
    have hrem : rem = [] := List.eq_nil_of_length_eq_zero (Nat.le_zero.mp hn)
    subst hrem
    obtain ⟨hls, hmap⟩ := tracker_nil (by simpa using hperm) hkeys
    subst hls
    refine ⟨by simp [processAll_nil], by simp [processAll_nil, hmap], ?_⟩
    intro pre rest heq
    have : pre = [] := (List.append_eq_nil.mp heq.symm).1
    subst this
    simp [processAll_nil]
  | succ n ih =>
    intro rem ls t hn hpos hperm hkeys
    cases rem with
    | nil =>
      obtain ⟨hls, hmap⟩ := tracker_nil (by simpa using hperm) hkeys
      subst hls
      refine ⟨by simp [processAll_nil], by simp [processAll_nil, hmap], ?_⟩
      intro pre rest heq
      have : pre = [] := (List.append_eq_nil.mp heq.symm).1
      subst this
      simp [processAll_nil]
    | cons b rem' =>
      obtain ⟨boff, blen⟩ := b
      have hn' : rem'.length ≤ n := by simp at hn; omega
      have hmemP : (boff, blen) ∈ blocksFrom t.complete_up_to ls :=
        hperm.mem_iff.mp (List.mem_append.mpr (Or.inr (by simp)))
      cases ls with
      | nil => simp [blocksFrom] at hmemP
      | cons l₁ ls₂ =>
        have hpos₂ : ∀ x ∈ ls₂, 0 < x := fun x hx => hpos x (by simp [hx])
        by_cases hb : boff = t.complete_up_to
        · -- the delivered block is the one at the cursor: advance and drain
          subst hb
          have hblen : blen = l₁ := blocksFrom_head_of_key_eq hpos hmemP
          subst hblen
          have hperm' : (t.uploaded_blocks ++ rem').Perm
              (blocksFrom (t.complete_up_to + blen) ls₂) := by
            have h1 : ((t.complete_up_to, blen) :: (t.uploaded_blocks ++ rem')).Perm
                (t.uploaded_blocks ++ (t.complete_up_to, blen) :: rem') :=
              List.perm_middle.symm
            have h2 : ((t.complete_up_to, blen) :: (t.uploaded_blocks ++ rem')).Perm
                ((t.complete_up_to, blen) :: blocksFrom (t.complete_up_to + blen) ls₂) :=
              h1.trans (by simpa [blocksFrom] using hperm)
            exact h2.cons_inv
          obtain ⟨j, m', hj, hdrain, hperm3, hkeys3⟩ :=
            drain_spec t.uploaded_blocks.length t.uploaded_blocks
              (t.complete_up_to + blen) ls₂ rem' (Nat.le_refl _) hpos₂ hperm'
          have hcb : t.complete_block t.complete_up_to blen =
              ⟨t.complete_up_to + blen + (ls₂.take j).sum, m'⟩ := by
            simp [CompletionTracker.complete_block, hdrain]
          have hsum : t.complete_up_to + blen + (ls₂.take j).sum + (ls₂.drop j).sum
              = t.complete_up_to + (blen :: ls₂).sum := by
            have := List.sum_take_add_sum_drop ls₂ j
            simp only [List.sum_cons]
            omega
          obtain ⟨hfin, hmap, hpre⟩ :=
            ih rem' (ls₂.drop j) ⟨t.complete_up_to + blen + (ls₂.take j).sum, m'⟩ hn'
              (fun x hx => hpos₂ x (List.mem_of_mem_drop hx))
              (by simpa using hperm3) (by simpa using hkeys3)
          refine ⟨?_, ?_, ?_⟩
          · rw [processAll_cons]
            simp only [hcb]
            rw [hfin]
            simpa using hsum
          · rw [processAll_cons]
            simp only [hcb]
            exact hmap
          · intro pre rest heq
            cases pre with
            | nil =>
              simp [processAll_nil]
            | cons p₀ pre' =>
              have hp₀ : p₀ = (t.complete_up_to, blen) :=
                (List.cons.injEq _ _ _ _ ▸ heq).1.symm
              have hrem' : rem' = pre' ++ rest := (List.cons.injEq _ _ _ _ ▸ heq).2
              subst hp₀
              rw [processAll_cons]
              simp only [hcb]
              have hb2 := hpre pre' rest hrem'
              dsimp only at hb2
              omega
        · -- the delivered block is ahead of the cursor: it gets buffered
          have hkeyfree : ∀ p ∈ t.uploaded_blocks, p.1 ≠ boff := by
            have hndP : ((blocksFrom t.complete_up_to (l₁ :: ls₂)).map Prod.fst).Nodup :=
              blocksFrom_keys_nodup hpos
            have hnd : ((t.uploaded_blocks ++ (boff, blen) :: rem').map Prod.fst).Nodup :=
              (List.Perm.nodup_iff (hperm.map Prod.fst)).mpr hndP
            rw [List.map_append] at hnd
            have hdisj := (List.nodup_append.mp hnd).2.2
            intro p hp hpk
            have hmm : boff ∈ t.uploaded_blocks.map Prod.fst := by
              rw [← hpk]
              exact List.mem_map_of_mem Prod.fst hp
            exact hdisj hmm (by simp)
          have hcb : t.complete_block boff blen =
              ⟨t.complete_up_to, (boff, blen) :: t.uploaded_blocks⟩ := by
            simp [CompletionTracker.complete_block, hb, insertKV,
              eraseA_eq_self hkeyfree]
          have hperm' : (((boff, blen) :: t.uploaded_blocks) ++ rem').Perm
              (blocksFrom t.complete_up_to (l₁ :: ls₂)) := by
            have h1 : (((boff, blen) :: t.uploaded_blocks) ++ rem').Perm
                (t.uploaded_blocks ++ (boff, blen) :: rem') := by
              simpa using (@List.perm_middle (Nat × Nat) (boff, blen)
                t.uploaded_blocks rem').symm
            exact h1.trans hperm
          have hkeys' : ∀ p ∈ (boff, blen) :: t.uploaded_blocks,
              p.1 ≠ t.complete_up_to := by
            intro p hp
            rcases List.mem_cons.mp hp with rfl | hp'
            · exact hb
            · exact hkeys p hp'
          obtain ⟨hfin, hmap, hpre⟩ :=
            ih rem' (l₁ :: ls₂) ⟨t.complete_up_to, (boff, blen) :: t.uploaded_blocks⟩
              hn' hpos hperm' hkeys'
          refine ⟨?_, ?_, ?_⟩
          · rw [processAll_cons]
            simp only [hcb]
            exact hfin
          · rw [processAll_cons]
            simp only [hcb]
            exact hmap
          · intro pre rest heq
            cases pre with
            | nil =>
              simp [processAll_nil]
            | cons p₀ pre' =>
              have hp₀ : p₀ = (boff, blen) := (List.cons.injEq _ _ _ _ ▸ heq).1.symm
              have hrem' : rem' = pre' ++ rest := (List.cons.injEq _ _ _ _ ▸ heq).2
              subst hp₀
              rw [processAll_cons]
              simp only [hcb]
              exact hpre pre' rest hrem'

/-- Claim C1 (confirmed). For every finite sequence of non-overlapping blocks exactly
covering `[0, N)` (i.e. any permutation of the partition of `[0, N)` into
blocks of positive lengths `ls`, with `N = ls.sum`), delivered to
`complete_block` in any order, after all calls `complete_up_to = N` and the
buffered mapping is empty; moreover every intermediate value of
`complete_up_to` is at most `N`, and `complete_up_to` never decreases
across calls. -/
theorem C1_completion_tracker_covering (ls : List Nat)
    (delivered : List (Nat × Nat))
    (hpos : ∀ l ∈ ls, 0 < l)
    (hperm : delivered.Perm (blocksFrom 0 ls)) :
    (processAll CompletionTracker.mkNew delivered).complete_up_to = ls.sum ∧
    (processAll CompletionTracker.mkNew delivered).uploaded_blocks = [] ∧
    (∀ pre rest, delivered = pre ++ rest →
      (processAll CompletionTracker.mkNew pre).complete_up_to ≤ ls.sum) ∧
    (∀ (t : CompletionTracker) (off len : Nat),
      t.complete_up_to ≤ (t.complete_block off len).complete_up_to) := by
  obtain ⟨h1, h2, h3⟩ :=
    tracker_run delivered.length delivered ls CompletionTracker.mkNew
      (Nat.le_refl _) hpos (by simpa [CompletionTracker.mkNew] using hperm)
      (by simp [CompletionTracker.mkNew])
  refine ⟨by simpa [CompletionTracker.mkNew] using h1, h2, ?_, complete_block_mono⟩
  intro pre rest h
  simpa [CompletionTracker.mkNew] using h3 pre rest h

theorem C1_completion_tracker_covering_witness :
    (∀ l ∈ [2, 3], 0 < l) ∧
    ([((2 : Nat), (3 : Nat)), (0, 2)]).Perm (blocksFrom 0 [2, 3]) ∧
    (processAll CompletionTracker.mkNew [(2, 3), (0, 2)]).complete_up_to
      = [2, 3].sum := by
  refine ⟨by decide, by decide, ?_⟩
  exact (C1_completion_tracker_covering [2, 3] [(2, 3), (0, 2)]
    (by decide) (by decide)).1

/-- The drain loop, run on a buffer whose blocks are pairwise disjoint and
all at offsets at least the cursor, leaves every remaining buffered block
strictly beyond the final cursor. -/
theorem drain_keys : ∀ (n : Nat) (m : List (Nat × Nat)) (c : Nat),
    m.length ≤ n →
    (∀ p ∈ m, c ≤ p.1) →
    m.Pairwise (fun p q => p.1 + p.2 ≤ q.1 ∨ q.1 + q.2 ≤ p.1) →
    c ≤ (drainLoop c m).1 ∧
    (∀ p ∈ (drainLoop c m).2, (drainLoop c m).1 < p.1) := by
  intro n
  induction n with
  | zero =>
    intro m c hn hk _
    have hm : m = [] := List.eq_nil_of_length_eq_zero (Nat.le_zero.mp hn)
    subst hm
    rw [drainLoop_none (by rfl)]
    exact ⟨Nat.le_refl _, by simp⟩
  | succ n ih =>
    intro m c hn hk hd
    cases hl : lookupA c m with
    | none =>
      rw [drainLoop_none hl]
      refine ⟨Nat.le_refl _, ?_⟩
      intro p hp
      exact Nat.lt_of_le_of_ne (hk p hp) (Ne.symm (lookupA_none_forall hl p hp))
    | some v =>
      have hmem : (c, v) ∈ m := lookupA_some_mem hl
      rw [drainLoop_some hl]
      have hsym : Symmetric (fun p q : Nat × Nat =>
          p.1 + p.2 ≤ q.1 ∨ q.1 + q.2 ≤ p.1) := by
        intro a b hab
        exact hab.symm
      have hk2 : ∀ p ∈ eraseA c m, c + v ≤ p.1 := by
        intro p hp
        obtain ⟨hpm, hpk⟩ := mem_eraseA hp
        have hclt : c ≤ p.1 := hk p hpm
        have hne : p ≠ (c, v) := by
          intro hcon
          exact hpk (congrArg Prod.fst hcon)
        have hdisj2 := hd.forall hsym hpm hmem hne
        rcases hdisj2 with h | h
        · -- p.1 + p.2 ≤ c contradicts c ≤ p.1 unless p.2 = 0 and p.1 = c
          exfalso
          have : p.1 ≠ c := hpk
          omega
        · simpa using h
      have hd2 : (eraseA c m).Pairwise
          (fun p q => p.1 + p.2 ≤ q.1 ∨ q.1 + q.2 ≤ p.1) :=
        hd.sublist (List.filter_sublist _)
      have hlen2 : (eraseA c m).length ≤ n :=
        Nat.lt_succ_iff.mp (Nat.lt_of_lt_of_le (eraseA_length_lt hl) hn)
      obtain ⟨ih1, ih2⟩ := ih (eraseA c m) (c + v) hlen2 hk2 hd2
      exact ⟨Nat.le_trans (Nat.le_add_right c v) ih1, ih2⟩

/-- Claim C8 (confirmed). Under the caller contract (the delivered block does not lie
behind `complete_up_to` and does not overlap any buffered block, and the
buffered blocks are pairwise disjoint with offsets strictly beyond
`complete_up_to`), `complete_block` preserves the invariant: a block is
buffered only at a key strictly greater than the `complete_up_to` current
at insertion time, and after the call the mapping holds no entry keyed at
the (new) `complete_up_to` — any contiguous successor is immediately
drained. -/
theorem C8_tracker_invariant (t : CompletionTracker) (off len : Nat)
    (hkeys : ∀ p ∈ t.uploaded_blocks, t.complete_up_to < p.1)
    (hdisj : t.uploaded_blocks.Pairwise
      (fun p q => p.1 + p.2 ≤ q.1 ∨ q.1 + q.2 ≤ p.1))
    (hoff : t.complete_up_to ≤ off)
    (hnov : ∀ p ∈ t.uploaded_blocks, off + len ≤ p.1 ∨ p.1 + p.2 ≤ off) :
    (off ≠ t.complete_up_to → t.complete_up_to < off) ∧
    (∀ p ∈ (t.complete_block off len).uploaded_blocks,
      (t.complete_block off len).complete_up_to < p.1) ∧
    lookupA (t.complete_block off len).complete_up_to
      (t.complete_block off len).uploaded_blocks = none := by
  refine ⟨fun hne => Nat.lt_of_le_of_ne hoff (Ne.symm hne), ?_⟩
  by_cases hb : off = t.complete_up_to
  · -- cursor branch: advance and drain
    have hk : ∀ p ∈ t.uploaded_blocks, t.complete_up_to + len ≤ p.1 := by
      intro p hp
      rcases hnov p hp with h | h
      · omega
      · have := hkeys p hp
        omega
    obtain ⟨_, hlt⟩ := drain_keys t.uploaded_blocks.length t.uploaded_blocks
      (t.complete_up_to + len) (Nat.le_refl _) hk hdisj
    have hcb : t.complete_block off len =
        ⟨(drainLoop (t.complete_up_to + len) t.uploaded_blocks).1,
         (drainLoop (t.complete_up_to + len) t.uploaded_blocks).2⟩ := by
      simp [CompletionTracker.complete_block, hb]
    rw [hcb]
    refine ⟨hlt, ?_⟩
    exact lookupA_eq_none (fun p hp => Nat.ne_of_gt (hlt p hp))
  · -- gap branch: buffer the block
    have hcb : t.complete_block off len =
        ⟨t.complete_up_to, insertKV off len t.uploaded_blocks⟩ := by
      simp [CompletionTracker.complete_block, hb]
    rw [hcb]
    have hoff' : t.complete_up_to < off := Nat.lt_of_le_of_ne hoff (Ne.symm hb)
    constructor
    · intro p hp
      rcases List.mem_cons.mp hp with rfl | hp'
      · exact hoff'
      · exact hkeys p (mem_eraseA hp').1
    · refine lookupA_eq_none ?_
      intro p hp
      rcases List.mem_cons.mp hp with rfl | hp'
      · exact hb
      · exact Nat.ne_of_gt (hkeys p (mem_eraseA hp').1)

theorem C8_tracker_invariant_witness :
    (∀ p ∈ [((5 : Nat), (1 : Nat))], (2 : Nat) < p.1) ∧
    ([((5 : Nat), (1 : Nat))]).Pairwise
      (fun p q => p.1 + p.2 ≤ q.1 ∨ q.1 + q.2 ≤ p.1) ∧
    (2 : Nat) ≤ 3 ∧
    (∀ p ∈ [((5 : Nat), (1 : Nat))], 3 + 1 ≤ p.1 ∨ p.1 + p.2 ≤ 3) ∧
    ((3 ≠ 2 → (2 : Nat) < 3) ∧
     (∀ p ∈ ((⟨2, [(5, 1)]⟩ : CompletionTracker).complete_block 3 1).uploaded_blocks,
       ((⟨2, [(5, 1)]⟩ : CompletionTracker).complete_block 3 1).complete_up_to < p.1) ∧
     lookupA ((⟨2, [(5, 1)]⟩ : CompletionTracker).complete_block 3 1).complete_up_to
       ((⟨2, [(5, 1)]⟩ : CompletionTracker).complete_block 3 1).uploaded_blocks = none) := by
  refine ⟨by decide, by decide, by decide, by decide, ?_⟩
  exact C8_tracker_invariant ⟨2, [(5, 1)]⟩ 3 1 (by decide) (by decide)
    (by decide) (by decide)

theorem chunksOf_nil (n : Nat) : chunksOf n [] = [] := by
  rw [chunksOf]
  simp

theorem chunksOf_cons {n : Nat} {l : List Nat} (hl : l ≠ []) (hn : n ≠ 0) :
    chunksOf n l = l.take n :: chunksOf n (l.drop n) := by
  rw [chunksOf]
  simp [hl, hn]

theorem blockHashes_of_lt {H : List Nat → List Nat} {bytes : List Nat}
    (h : bytes.length < BLOCK_SIZE) : blockHashes H bytes = [] := by
  rw [blockHashes]
  simp [Nat.not_le.mpr h]

theorem blockHashes_of_le {H : List Nat → List Nat} {bytes : List Nat}
    (h : BLOCK_SIZE ≤ bytes.length) :
    blockHashes H bytes =
      H (bytes.take BLOCK_SIZE) ++ blockHashes H (bytes.drop BLOCK_SIZE) := by
  rw [blockHashes]
  simp [h]

theorem remBytes_of_lt {bytes : List Nat}
    (h : bytes.length < BLOCK_SIZE) : remBytes bytes = bytes := by
  rw [remBytes]
  simp [Nat.not_le.mpr h]

theorem remBytes_of_le {bytes : List Nat} (h : BLOCK_SIZE ≤ bytes.length) :
    remBytes bytes = remBytes (bytes.drop BLOCK_SIZE) := by
  rw [remBytes]
  simp [h]

theorem remBytes_length_lt : ∀ (n : Nat) (bytes : List Nat),
    bytes.length ≤ n → (remBytes bytes).length < BLOCK_SIZE := by
  intro n
  induction n with
  | zero =>
    intro bytes hn
    have h0 : bytes.length = 0 := Nat.le_zero.mp hn
    rw [remBytes_of_lt (by rw [h0]; exact BLOCK_SIZE_pos)]
    rw [h0]
    exact BLOCK_SIZE_pos
  | succ n ih =>
    intro bytes hn
    by_cases h : BLOCK_SIZE ≤ bytes.length
    · rw [remBytes_of_le h]
      apply ih
      rw [List.length_drop]
      have := BLOCK_SIZE_pos
      omega
    · rw [remBytes_of_lt (Nat.not_le.mp h)]
      exact Nat.not_le.mp h

/-- Canonical form of the chunks loop, starting from a state with an empty
per-block context. -/
theorem updateChunks_canon (H : List Nat → List Nat) :
    ∀ (n : Nat) (bytes : List Nat) (s : ContentHash),
    bytes.length ≤ n → s.block_ctx = [] → s.pLen = 0 →
    updateChunks H s bytes =
      ⟨s.ctx ++ blockHashes H bytes, remBytes bytes, (remBytes bytes).length⟩ := by
  intro n
  induction n with
  | zero =>
    intro bytes s hn hb hp
    have h0 : bytes = [] := List.eq_nil_of_length_eq_zero (Nat.le_zero.mp hn)
    subst h0
    rw [show updateChunks H s [] = s from by
      simp [updateChunks, chunksOf_nil]]
    rw [blockHashes_of_lt (by simpa using BLOCK_SIZE_pos),
      remBytes_of_lt (by simpa using BLOCK_SIZE_pos)]
    cases s
    simp_all
  | succ n ih =>
    intro bytes s hn hb hp
    by_cases hnil : bytes = []
    · subst hnil
      rw [show updateChunks H s [] = s from by
        simp [updateChunks, chunksOf_nil]]
      rw [blockHashes_of_lt (by simpa using BLOCK_SIZE_pos),
        remBytes_of_lt (by simpa using BLOCK_SIZE_pos)]
      cases s
      simp_all
    · have hchunks : chunksOf BLOCK_SIZE bytes =
          bytes.take BLOCK_SIZE :: chunksOf BLOCK_SIZE (bytes.drop BLOCK_SIZE) :=
        chunksOf_cons hnil (Nat.pos_iff_ne_zero.mp BLOCK_SIZE_pos)
      by_cases hlen : bytes.length < BLOCK_SIZE
      · -- a single, final, short chunk
        have htake : bytes.take BLOCK_SIZE = bytes :=
          List.take_of_length_le (Nat.le_of_lt hlen)
        have hdrop : bytes.drop BLOCK_SIZE = [] :=
          List.drop_eq_nil_of_le (Nat.le_of_lt hlen)
        rw [show updateChunks H s bytes =
            (chunksOf BLOCK_SIZE bytes).foldl (updChunk H) s from rfl]
        rw [hchunks, htake, hdrop, chunksOf_nil]
        simp only [List.foldl_cons, List.foldl_nil]
        rw [show updChunk H s bytes =
            ⟨s.ctx, s.block_ctx ++ bytes, bytes.length⟩ from by
          simp [updChunk, hlen]]
        rw [blockHashes_of_lt hlen, remBytes_of_lt hlen]
        simp [hb]
      · -- a full chunk, then recurse
        have hge : BLOCK_SIZE ≤ bytes.length := Nat.not_lt.mp hlen
        have htlen : (bytes.take BLOCK_SIZE).length = BLOCK_SIZE := by
          rw [List.length_take]
          omega
        rw [show updateChunks H s bytes =
            (chunksOf BLOCK_SIZE bytes).foldl (updChunk H) s from rfl]
        rw [hchunks]
        simp only [List.foldl_cons]
        rw [show updChunk H s (bytes.take BLOCK_SIZE) =
            finish_block H ⟨s.ctx, s.block_ctx ++ bytes.take BLOCK_SIZE, s.pLen⟩
            from by
          simp [updChunk, htlen]]
        rw [show ((chunksOf BLOCK_SIZE (bytes.drop BLOCK_SIZE)).foldl (updChunk H)
            (finish_block H ⟨s.ctx, s.block_ctx ++ bytes.take BLOCK_SIZE, s.pLen⟩))
            = updateChunks H
              (finish_block H ⟨s.ctx, s.block_ctx ++ bytes.take BLOCK_SIZE, s.pLen⟩)
              (bytes.drop BLOCK_SIZE) from rfl]
        have hdlen : (bytes.drop BLOCK_SIZE).length ≤ n := by
          rw [List.length_drop]
          have := BLOCK_SIZE_pos
          omega
        rw [ih (bytes.drop BLOCK_SIZE) _ hdlen (by simp [finish_block]) (by
          simp [finish_block])]
        rw [blockHashes_of_le hge, remBytes_of_le hge]
        simp [finish_block, hb]

/-- Canonical form of `update` from a valid state: the state after `update`
depends only on the total byte stream `block_ctx ++ bytes`. -/
theorem update_canon (H : List Nat → List Nat) (s : ContentHash)
    (bytes : List Nat)
    (hv1 : s.pLen = s.block_ctx.length) (hv2 : s.block_ctx.length < BLOCK_SIZE) :
    update H s bytes =
      ⟨s.ctx ++ blockHashes H (s.block_ctx ++ bytes),
       remBytes (s.block_ctx ++ bytes),
       (remBytes (s.block_ctx ++ bytes)).length⟩ := by
  by_cases hp : s.pLen = 0
  · -- empty per-block context: straight to the chunks loop
    have hbnil : s.block_ctx = [] := by
      have : s.block_ctx.length = 0 := by omega
      exact List.eq_nil_of_length_eq_zero this
    rw [show update H s bytes = updateChunks H s bytes from by
      simp [update, hp]]
    rw [updateChunks_canon H bytes.length bytes s (Nat.le_refl _) hbnil hp]
    rw [hbnil]
    simp
  · -- non-empty per-block context: fill it first
    have hneq : (s.pLen ≠ 0) := hp
    by_cases hcmp : BLOCK_SIZE - s.pLen < bytes.length
    · -- enough bytes to complete the current block
      have htlen : (bytes.take (BLOCK_SIZE - s.pLen)).length = BLOCK_SIZE - s.pLen := by
        rw [List.length_take]
        omega
      have hfull : s.pLen + (bytes.take (BLOCK_SIZE - s.pLen)).length = BLOCK_SIZE := by
        rw [htlen]
        omega
      have hmin : (BLOCK_SIZE - s.pLen) ⊓ bytes.length = BLOCK_SIZE - s.pLen :=
        inf_eq_left.mpr (Nat.le_of_lt hcmp)
      have hple : s.pLen ≤ BLOCK_SIZE := by omega
      rw [show update H s bytes =
          updateChunks H
            (finish_block H ⟨s.ctx, s.block_ctx ++ bytes.take (BLOCK_SIZE - s.pLen),
              s.pLen + (bytes.take (BLOCK_SIZE - s.pLen)).length⟩)
            (bytes.drop (BLOCK_SIZE - s.pLen)) from by
        simp only [update, if_pos hneq]
        simp [hcmp, hmin, Nat.add_sub_cancel' hple]]
      have hdlen : (bytes.drop (BLOCK_SIZE - s.pLen)).length ≤ bytes.length := by
        rw [List.length_drop]
        omega
      rw [updateChunks_canon H bytes.length _ _ hdlen (by simp [finish_block])
        (by simp [finish_block])]
      -- identify the first full block and the remainder inside the total stream
      have htotlen : BLOCK_SIZE ≤ (s.block_ctx ++ bytes).length := by
        rw [List.length_append]
        omega
      have htake : (s.block_ctx ++ bytes).take BLOCK_SIZE =
          s.block_ctx ++ bytes.take (BLOCK_SIZE - s.pLen) := by
        rw [List.take_append_eq_append_take]
        rw [List.take_of_length_le (by omega), hv1]
      have hdrop : (s.block_ctx ++ bytes).drop BLOCK_SIZE =
          bytes.drop (BLOCK_SIZE - s.pLen) := by
        rw [List.drop_append_eq_append_drop]
        rw [List.drop_eq_nil_of_le (by omega), hv1]
        simp
      rw [blockHashes_of_le htotlen, remBytes_of_le htotlen, htake, hdrop]
      simp [finish_block]
    · -- all of `bytes` goes into the current block
      have hble : bytes.length ≤ BLOCK_SIZE - s.pLen := Nat.not_lt.mp hcmp
      by_cases hfull : s.pLen + bytes.length = BLOCK_SIZE
      · -- the block is now exactly full: fold it
        rw [show update H s bytes =
            updateChunks H
              (finish_block H ⟨s.ctx, s.block_ctx ++ bytes, s.pLen + bytes.length⟩)
              [] from by
          simp only [update, if_pos hneq]
          simp [hcmp, hfull]]
        rw [show updateChunks H
            (finish_block H ⟨s.ctx, s.block_ctx ++ bytes, s.pLen + bytes.length⟩) []
            = finish_block H ⟨s.ctx, s.block_ctx ++ bytes, s.pLen + bytes.length⟩
            from by simp [updateChunks, chunksOf_nil]]
        have htotlen : (s.block_ctx ++ bytes).length = BLOCK_SIZE := by
          rw [List.length_append]
          omega
        rw [blockHashes_of_le (Nat.le_of_eq htotlen.symm),
          remBytes_of_le (Nat.le_of_eq htotlen.symm)]
        rw [List.take_of_length_le (Nat.le_of_eq htotlen),
          List.drop_eq_nil_of_le (Nat.le_of_eq htotlen)]
        rw [blockHashes_of_lt (by simpa using BLOCK_SIZE_pos),
          remBytes_of_lt (by simpa using BLOCK_SIZE_pos)]
        simp [finish_block]
      · -- the block is still incomplete
        rw [show update H s bytes =
            ⟨s.ctx, s.block_ctx ++ bytes, s.pLen + bytes.length⟩ from by
          simp only [update, if_pos hneq]
          simp [hcmp, hfull]]
        have htotlt : (s.block_ctx ++ bytes).length < BLOCK_SIZE := by
          rw [List.length_append]
          omega
        rw [blockHashes_of_lt htotlt, remBytes_of_lt htotlt]
        simp [List.length_append]
        omega

theorem blockHashes_append (H : List Nat → List Nat) :
    ∀ (n : Nat) (a b : List Nat), a.length ≤ n →
    blockHashes H (a ++ b) = blockHashes H a ++ blockHashes H (remBytes a ++ b) := by
  intro n
  induction n with
  | zero =>
    intro a b hn
    have h0 : a = [] := List.eq_nil_of_length_eq_zero (Nat.le_zero.mp hn)
    subst h0
    have he1 : blockHashes H ([] : List Nat) = [] :=
      blockHashes_of_lt (by simpa using BLOCK_SIZE_pos)
    have he2 : remBytes ([] : List Nat) = [] :=
      remBytes_of_lt (by simpa using BLOCK_SIZE_pos)
    simp [he1, he2]
  | succ n ih =>
    intro a b hn
    by_cases h : BLOCK_SIZE ≤ a.length
    · have htot : BLOCK_SIZE ≤ (a ++ b).length := by
        rw [List.length_append]
        omega
      have htake : (a ++ b).take BLOCK_SIZE = a.take BLOCK_SIZE :=
        List.take_append_of_le_length h
      have hdrop : (a ++ b).drop BLOCK_SIZE = a.drop BLOCK_SIZE ++ b :=
        List.drop_append_of_le_length h
      have hdlen : (a.drop BLOCK_SIZE).length ≤ n := by
        rw [List.length_drop]
        have := BLOCK_SIZE_pos
        omega
      rw [blockHashes_of_le htot, htake, hdrop, ih (a.drop BLOCK_SIZE) b hdlen,
        blockHashes_of_le h, remBytes_of_le h, List.append_assoc]
    · rw [blockHashes_of_lt (Nat.not_le.mp h), remBytes_of_lt (Nat.not_le.mp h)]
      simp

theorem remBytes_append :
    ∀ (n : Nat) (a b : List Nat), a.length ≤ n →
    remBytes (a ++ b) = remBytes (remBytes a ++ b) := by
  intro n
  induction n with
  | zero =>
    intro a b hn
    have h0 : a = [] := List.eq_nil_of_length_eq_zero (Nat.le_zero.mp hn)
    subst h0
    have he2 : remBytes ([] : List Nat) = [] :=
      remBytes_of_lt (by simpa using BLOCK_SIZE_pos)
    simp [he2]
  | succ n ih =>
    intro a b hn
    by_cases h : BLOCK_SIZE ≤ a.length
    · have htot : BLOCK_SIZE ≤ (a ++ b).length := by
        rw [List.length_append]
        omega
      have hdrop : (a ++ b).drop BLOCK_SIZE = a.drop BLOCK_SIZE ++ b :=
        List.drop_append_of_le_length h
      have hdlen : (a.drop BLOCK_SIZE).length ≤ n := by
        rw [List.length_drop]
        have := BLOCK_SIZE_pos
        omega
      rw [remBytes_of_le htot, hdrop, ih (a.drop BLOCK_SIZE) b hdlen,
        remBytes_of_le h]
    · rw [remBytes_of_lt (Nat.not_le.mp h)]

/-- Folding any sequence of `update` calls from a valid state computes the
canonical form of the concatenated stream. -/
theorem foldl_update_canon (H : List Nat → List Nat) :
    ∀ (pieces : List (List Nat)) (s : ContentHash),
    s.pLen = s.block_ctx.length → s.block_ctx.length < BLOCK_SIZE →
    pieces.foldl (update H) s =
      ⟨s.ctx ++ blockHashes H (s.block_ctx ++ pieces.flatten),
       remBytes (s.block_ctx ++ pieces.flatten),
       (remBytes (s.block_ctx ++ pieces.flatten)).length⟩ := by
  intro pieces
  induction pieces with
  | nil =>
    intro s hv1 hv2
    simp only [List.foldl_nil, List.flatten_nil, List.append_nil]
    rw [blockHashes_of_lt hv2, remBytes_of_lt hv2]
    cases s
    simp_all
  | cons p ps ih =>
    intro s hv1 hv2
    simp only [List.foldl_cons, List.flatten_cons]
    rw [update_canon H s p hv1 hv2]
    have hrem1 : (remBytes (s.block_ctx ++ p)).length < BLOCK_SIZE :=
      remBytes_length_lt (s.block_ctx ++ p).length _ (Nat.le_refl _)
    rw [ih ⟨s.ctx ++ blockHashes H (s.block_ctx ++ p),
        remBytes (s.block_ctx ++ p), (remBytes (s.block_ctx ++ p)).length⟩
      rfl hrem1]
    have hbh : blockHashes H ((s.block_ctx ++ p) ++ ps.flatten) =
        blockHashes H (s.block_ctx ++ p) ++
          blockHashes H (remBytes (s.block_ctx ++ p) ++ ps.flatten) :=
      blockHashes_append H (s.block_ctx ++ p).length _ _ (Nat.le_refl _)
    have hrb : remBytes ((s.block_ctx ++ p) ++ ps.flatten) =
        remBytes (remBytes (s.block_ctx ++ p) ++ ps.flatten) :=
      remBytes_append (s.block_ctx ++ p).length _ _ (Nat.le_refl _)
    rw [← List.append_assoc, hbh, hrb, List.append_assoc]

/-- Claim C2 (confirmed). For every byte sequence and every way of splitting it into a
list of `update` calls (including empty slices), the digest produced by
calling `update` on each piece in order and then `finish` equals the digest
produced by a single `update` call with the whole sequence followed by
`finish` — for every choice of the underlying 256-bit hash `H`. -/
theorem C2_content_hash_split_invariance (H : List Nat → List Nat)
    (pieces : List (List Nat)) :
    finish H (pieces.foldl (update H) ContentHash.new) =
      finish H (update H ContentHash.new pieces.flatten) := by
  have h1 := foldl_update_canon H pieces ContentHash.new rfl
    (by simpa [ContentHash.new] using BLOCK_SIZE_pos)
  have h2 := update_canon H ContentHash.new pieces.flatten rfl
    (by simpa [ContentHash.new] using BLOCK_SIZE_pos)
  rw [h1, h2]

/-- Claim C4 (code bug). The claim says the k-th unjittered backoff equals
`min(initial_backoff_time × 2^k, max_backoff_time)` and in particular never
exceeds `max_backoff_time`.  With `initial_backoff_time = 3` and
`max_backoff_time = 4`, the loop sleeps unjittered backoffs `3, 6, 6`: the
second backoff is `6 ≠ min(3 × 2, 4) = 4` and exceeds the maximum, because
the code doubles the backoff whenever it is still *below* the maximum,
overshooting it when `max` is not `initial × 2^j`.  This also contradicts
the code's own documentation of `max_backoff_time` ("Exponential backoff
duration won't increase past this time"). -/
theorem C4_backoff_overshoots_max :
    (runLoop 10 4 0 3 [.err 1, .err 1, .err 1]).events =
      [.backoff 3, .backoff 6, .backoff 6] ∧
    ¬ ((6 : Nat) = min (3 * 2 ^ 1) 4) ∧ (4 : Nat) < 6 := by
  refine ⟨?_, by decide, by decide⟩
  decide

/-- Claim C5 (confirmed). A run of consecutive rate-limited responses, each carrying a
server-specified positive `retry_after_seconds = n`: the loop makes one
extra attempt per response, sleeps exactly `n` seconds each time, and
continues with the *same* `errors` counter and backoff — the retry budget
is never consumed, for any number `k` of consecutive rate-limited
responses. -/
theorem C5_rate_limited_consumes_no_budget (rc mB errors backoff reason n k : Nat)
    (rest : List AppendResult) (hn : 0 < n) :
    runLoop rc mB errors backoff
      (List.replicate k (.rateLimited reason n) ++ rest) =
      ⟨(runLoop rc mB errors backoff rest).attempts + k,
       List.replicate k (SleepEvent.rateLimit n) ++
         (runLoop rc mB errors backoff rest).events,
       (runLoop rc mB errors backoff rest).outcome⟩ := by
  induction k with
  | zero => simp
  | succ k ih =>
    rw [List.replicate_succ, List.cons_append]
    show (⟨(runLoop rc mB errors backoff
        (List.replicate k (.rateLimited reason n) ++ rest)).attempts + 1,
      (if 0 < n then [SleepEvent.rateLimit n] else []) ++
        (runLoop rc mB errors backoff
          (List.replicate k (.rateLimited reason n) ++ rest)).events,
      (runLoop rc mB errors backoff
        (List.replicate k (.rateLimited reason n) ++ rest)).outcome⟩ : LoopRun) = _
    rw [ih]
    simp [hn, List.replicate_succ]
    omega

theorem C5_rate_limited_consumes_no_budget_witness :
    0 < 7 ∧
    runLoop 3 2 0 1 (List.replicate 2 (.rateLimited 0 7) ++ [.ok]) =
      ⟨(runLoop 3 2 0 1 [.ok]).attempts + 2,
       List.replicate 2 (SleepEvent.rateLimit 7) ++ (runLoop 3 2 0 1 [.ok]).events,
       (runLoop 3 2 0 1 [.ok]).outcome⟩ :=
  ⟨by decide, C5_rate_limited_consumes_no_budget 3 2 0 1 0 7 2 [.ok] (by decide)⟩

/-- One non-rate-limited error, with budget not yet exhausted: one more
attempt, one backoff sleep, and the loop continues with the incremented
error count and doubled-if-below-max backoff. -/
theorem runLoop_err_step (M mB errors b e : Nat) (rest : List AppendResult)
    (h : (errors + 1) % U32 ≠ M) :
    runLoop M mB errors b (.err e :: rest) =
      ⟨(runLoop M mB ((errors + 1) % U32)
          (if b < mB then 2 * b else b) rest).attempts + 1,
       SleepEvent.backoff b ::
         (runLoop M mB ((errors + 1) % U32)
           (if b < mB then 2 * b else b) rest).events,
       (runLoop M mB ((errors + 1) % U32)
         (if b < mB then 2 * b else b) rest).outcome⟩ := by
  show (if (errors + 1) % U32 = M then (⟨1, [], .failed e⟩ : LoopRun)
    else _) = _
  rw [if_neg h]

/-- One non-rate-limited error exhausting the budget: the loop surfaces it
immediately after this attempt. -/
theorem runLoop_err_last (M mB errors b e : Nat) (rest : List AppendResult)
    (h : (errors + 1) % U32 = M) :
    runLoop M mB errors b (.err e :: rest) = ⟨1, [], .failed e⟩ := by
  show (if (errors + 1) % U32 = M then (⟨1, [], .failed e⟩ : LoopRun)
    else _) = _
  rw [if_pos h]

/-- A run of `j` consecutive non-rate-limited errors that does not exhaust
the budget: `j` extra attempts, after which the loop continues with the
error counter advanced by `j`. -/
theorem runLoop_err_run (M mB e : Nat) (rest : List AppendResult) :
    ∀ (j errors b : Nat), errors + j < M → M < U32 →
    ∃ b', (runLoop M mB errors b (List.replicate j (.err e) ++ rest)).attempts
        = (runLoop M mB (errors + j) b' rest).attempts + j ∧
      (runLoop M mB errors b (List.replicate j (.err e) ++ rest)).outcome
        = (runLoop M mB (errors + j) b' rest).outcome := by
  intro j
  induction j with
  | zero =>
    intro errors b _ _
    exact ⟨b, by simp, by simp⟩
  | succ j ih =>
    intro errors b hj hM
    have hmod : (errors + 1) % U32 = errors + 1 := Nat.mod_eq_of_lt (by omega)
    have hne : (errors + 1) % U32 ≠ M := by
      rw [hmod]
      omega
    have hE : errors + (j + 1) = errors + 1 + j := by omega
    rw [List.replicate_succ, List.cons_append, runLoop_err_step M mB errors b e _ hne,
      hmod, hE]
    obtain ⟨b', h1, h2⟩ := ih (errors + 1) (if b < mB then 2 * b else b)
      (by omega) hM
    refine ⟨b', ?_, ?_⟩
    · show (runLoop M mB (errors + 1) (if b < mB then 2 * b else b)
        (List.replicate j (.err e) ++ rest)).attempts + 1
        = (runLoop M mB (errors + 1 + j) b' rest).attempts + (j + 1)
      rw [h1]
      omega
    · show (runLoop M mB (errors + 1) (if b < mB then 2 * b else b)
        (List.replicate j (.err e) ++ rest)).outcome
        = (runLoop M mB (errors + 1 + j) b' rest).outcome
      exact h2

/-- A script of nothing but non-rate-limited errors, enough of them, run
with a positive budget: the loop attempts exactly until the error count
reaches the budget and surfaces the error of the last attempt. -/
theorem runLoop_err_all (mB : Nat) :
    ∀ (es : List Nat) (errors b M : Nat), errors < M → M < U32 →
    M - errors ≤ es.length →
    (runLoop M mB errors b (es.map .err)).attempts = M - errors ∧
    (runLoop M mB errors b (es.map .err)).outcome
      = .failed (es.getD (M - errors - 1) 0) := by
  intro es
  induction es with
  | nil =>
    intro errors b M h1 _ h3
    simp at h3
    omega
  | cons e es ih =>
    intro errors b M h1 h2 h3
    have hmod : (errors + 1) % U32 = errors + 1 := Nat.mod_eq_of_lt (by omega)
    by_cases hlast : errors + 1 = M
    · rw [List.map_cons, runLoop_err_last M mB errors b e _ (by rw [hmod]; exact hlast)]
      constructor
      · show 1 = M - errors
        omega
      · have hidx : M - errors - 1 = 0 := by omega
        rw [hidx]
        simp
    · have hne : (errors + 1) % U32 ≠ M := by rw [hmod]; exact hlast
      rw [List.map_cons, runLoop_err_step M mB errors b e _ hne, hmod]
      have h1' : errors + 1 < M := by omega
      have h3' : M - (errors + 1) ≤ es.length := by
        simp at h3
        omega
      obtain ⟨ha, ho⟩ := ih (errors + 1) (if b < mB then 2 * b else b) M h1' h2 h3'
      constructor
      · show (runLoop M mB (errors + 1) (if b < mB then 2 * b else b)
          (es.map .err)).attempts + 1 = M - errors
        rw [ha]
        omega
      · show (runLoop M mB (errors + 1) (if b < mB then 2 * b else b)
          (es.map .err)).outcome = .failed ((e :: es).getD (M - errors - 1) 0)
        rw [ho]
        have hidx : M - errors - 1 = (M - (errors + 1) - 1) + 1 := by omega
        rw [hidx]
        simp

/-- Claim C6, counterexample. With a configured retry budget of `M = 0`, the
claim says the loop makes exactly 0 attempts and returns the last error.
Instead the `errors == retry_count` test can never fire (the counter starts
at 1 after the first failure), so the loop keeps retrying: after 5 error
responses it has made 5 attempts and is still running. -/
theorem C6_zero_budget_counterexample :
    (runLoop 0 2 0 1 (List.replicate 5 (AppendResult.err 9))).attempts = 5 ∧
    (runLoop 0 2 0 1 (List.replicate 5 (AppendResult.err 9))).outcome
      = .pending := by
  decide

/-- Claim C6, amended. For every retry budget `M` with `1 ≤ M < 2^32` and
every response sequence consisting only of non-rate-limited failures, of
length at least `M`, the retry loop makes exactly `M` append attempts and
then returns the error of the `M`-th response.  (The original claim also
allowed `M = 0`, for which the loop never terminates.) -/
theorem C6_retry_budget_exact (M mB b : Nat) (es : List Nat)
    (h1 : 1 ≤ M) (h2 : M < U32) (h3 : M ≤ es.length) :
    (runLoop M mB 0 b (es.map .err)).attempts = M ∧
    (runLoop M mB 0 b (es.map .err)).outcome = .failed (es.getD (M - 1) 0) := by
  have := runLoop_err_all mB es 0 b M (by omega) h2 (by omega)
  simpa using this

theorem C6_retry_budget_exact_witness :
    1 ≤ 2 ∧ 2 < U32 ∧ 2 ≤ [4, 5, 6].length ∧
    ((runLoop 2 7 0 1 ([4, 5, 6].map .err)).attempts = 2 ∧
     (runLoop 2 7 0 1 ([4, 5, 6].map .err)).outcome
       = .failed ([4, 5, 6].getD (2 - 1) 0)) :=
  ⟨by decide, by decide, by decide,
    C6_retry_budget_exact 2 7 1 [4, 5, 6] (by decide) (by decide) (by decide)⟩

/-- Claim C7, counterexample. The claim says a permanent API error is
surfaced immediately without any retry attempt.  But the retry loop does
not classify errors at all: with budget 3, after one (permanent) API error
response followed by a success, the loop has made 2 attempts and ends in
success — the error was retried, not surfaced. -/
theorem C7_permanent_error_retried_counterexample :
    (runLoop 3 2 0 1 [AppendResult.err 7, AppendResult.ok]).attempts = 2 ∧
    (runLoop 3 2 0 1 [AppendResult.err 7, AppendResult.ok]).outcome
      = .success := by
  decide

/-- Claim C7, amended. A session-append returning a permanent API error is
*not* surfaced immediately: every non-rate-limited error consumes one slot
of the retry budget and the append is retried; only when `retry_count`
consecutive errors have occurred is the error surfaced.  In particular `j`
consecutive such errors followed by a success (for any `j` below the
budget) end in success after `j + 1` attempts. -/
theorem C7_permanent_error_retried (M mB b j e : Nat)
    (hj : j < M) (hM : M < U32) :
    (runLoop M mB 0 b (List.replicate j (.err e) ++ [.ok])).attempts = j + 1 ∧
    (runLoop M mB 0 b (List.replicate j (.err e) ++ [.ok])).outcome
      = .success := by
  obtain ⟨b', h1, h2⟩ := runLoop_err_run M mB e [.ok] j 0 b (by omega) hM
  constructor
  · rw [h1]
    show (1 : Nat) + j = j + 1
    omega
  · rw [h2]
    rfl

theorem C7_permanent_error_retried_witness :
    1 < 3 ∧ 3 < U32 ∧
    ((runLoop 3 2 0 1 (List.replicate 1 (.err 7) ++ [.ok])).attempts = 1 + 1 ∧
     (runLoop 3 2 0 1 (List.replicate 1 (.err 7) ++ [.ok])).outcome
       = .success) :=
  ⟨by decide, by decide,
    C7_permanent_error_retried 3 2 1 1 7 (by decide) (by decide)⟩

theorem chunkFuel_congr : ∀ (f1 f2 cs base : Nat) (data : List Nat),
    data.length ≤ f1 → data.length ≤ f2 →
    chunkFuel f1 cs base data = chunkFuel f2 cs base data := by
  intro f1
  induction f1 with
  | zero =>
    intro f2 cs base data h1 _
    have hm : data = [] := List.eq_nil_of_length_eq_zero (Nat.le_zero.mp h1)
    subst hm
    cases f2 with
    | zero => rfl
    | succ f2 => rfl
  | succ f1 ih =>
    intro f2 cs base data h1 h2
    by_cases hc : data = [] ∨ cs = 0
    · rcases hc with hc | hc
      · subst hc
        cases f2 with
        | zero => rfl
        | succ f2 => rfl
      · subst hc
        cases f2 with
        | zero =>
          have hm : data = [] := List.eq_nil_of_length_eq_zero (Nat.le_zero.mp h2)
          subst hm
          rfl
        | succ f2 =>
          show (if data = [] ∨ 0 = 0 then [] else _) =
            (if data = [] ∨ 0 = 0 then [] else _)
          rw [if_pos (Or.inr rfl), if_pos (Or.inr rfl)]
    · push_neg at hc
      obtain ⟨hd, hcs⟩ := hc
      have hpos : 0 < data.length := List.length_pos.mpr hd
      cases f2 with
      | zero => omega
      | succ f2 =>
        show (if data = [] ∨ cs = 0 then [] else
            (base, data.take cs) :: chunkFuel f1 cs (base + cs) (data.drop cs)) =
          (if data = [] ∨ cs = 0 then [] else
            (base, data.take cs) :: chunkFuel f2 cs (base + cs) (data.drop cs))
        rw [if_neg (by simp [hd, hcs]), if_neg (by simp [hd, hcs])]
        have hdl : (data.drop cs).length ≤ f1 := by
          rw [List.length_drop]
          omega
        have hdl2 : (data.drop cs).length ≤ f2 := by
          rw [List.length_drop]
          omega
        rw [ih f2 cs (base + cs) (data.drop cs) hdl hdl2]

theorem chunkList_nil (cs base : Nat) : chunkList cs base [] = [] := rfl

theorem chunkList_cons {cs : Nat} (base : Nat) {data : List Nat}
    (hl : data ≠ []) (hn : cs ≠ 0) :
    chunkList cs base data =
      (base, data.take cs) :: chunkList cs (base + cs) (data.drop cs) := by
  have hpos : 0 < data.length := List.length_pos.mpr hl
  unfold chunkList
  cases hf : data.length with
  | zero => omega
  | succ f =>
    show (if data = [] ∨ cs = 0 then [] else
        (base, data.take cs) :: chunkFuel f cs (base + cs) (data.drop cs)) = _
    rw [if_neg (by simp [hl, hn])]
    have hdl : (data.drop cs).length ≤ f := by
      rw [List.length_drop]
      omega
    rw [chunkFuel_congr f (data.drop cs).length cs (base + cs) (data.drop cs)
      hdl (Nat.le_refl _)]

/-- Claim C3 (code bug). The claim (and the spec) say `commit` declares as
total size the contiguous completed length (`complete_up_to`), for every
session state including resumed sessions.  The code instead puts
`bytes_transferred` — the bytes acknowledged *in this run* — into the
finish cursor (src/upload.rs lines 327-335).  Failing input: a session
resumed at `start_offset = 5` that uploads its remaining 3 bytes
successfully: `complete_up_to = 8` but `commit_arg` declares offset `3`. -/
theorem C3_commit_declares_bytes_transferred :
    (uploadModel 3 2 1 1 (SessionInner.resume 0 5) [1, 2, 3]
      [[.ok]] []).inner.commit_arg = ⟨0, 3⟩ ∧
    (uploadModel 3 2 1 1 (SessionInner.resume 0 5) [1, 2, 3]
      [[.ok]] []).inner.complete_up_to = 8 ∧
    (uploadModel 3 2 1 1 (SessionInner.resume 0 5) [1, 2, 3]
      [[.ok]] []).result = .ok 8 ∧
    (3 : Nat) ≠ 8 := by
  decide

/-- Claim C9 (code bug). First conjunct pair: a dispatched chunk is marked
closing exactly when its length differs from the full chunk size, and for a
source that is not an exact multiple no extra append is issued (the single
short chunk here is the only call, marked closing).  Remaining conjuncts:
for a source whose length *is* an exact multiple of the chunk size (here an
empty remainder on a session resumed at offset 5), exactly one additional
empty append marked closing is issued — but at remote cursor offset
`start_offset + complete_up_to = 10` (`append_arg` adds `start_offset` to
the absolute `final_len` again), not at the final contiguous length `5` as
the claim states. -/
theorem C9_final_close_append_offset :
    (uploadModel 3 2 1 1 (SessionInner.resume 0 5) [1, 2, 3]
      [[.ok]] []).calls = [⟨⟨5, true⟩, 3⟩] ∧
    (uploadModel 3 2 1 1 (SessionInner.resume 0 5) [] [] [.ok]).calls
      = [⟨⟨10, true⟩, 0⟩] ∧
    (uploadModel 3 2 1 1 (SessionInner.resume 0 5) [] []
      [.ok]).inner.complete_up_to = 5 ∧
    (10 : Nat) ≠ 5 := by
  decide

theorem chunkList_consecutive {cs : Nat} (hcs : 0 < cs) :
    ∀ (n : Nat) (data : List Nat) (base : Nat), data.length ≤ n →
    ConsecutiveFrom base (chunkList cs base data) := by
  intro n
  induction n with
  | zero =>
    intro data base hn
    have hm : data = [] := List.eq_nil_of_length_eq_zero (Nat.le_zero.mp hn)
    subst hm
    rw [chunkList_nil]
    trivial
  | succ n ih =>
    intro data base hn
    by_cases hd : data = []
    · subst hd
      rw [chunkList_nil]
      trivial
    · rw [chunkList_cons base hd (by omega)]
      refine ⟨rfl, ?_⟩
      by_cases hlen : data.length ≤ cs
      · have hdrop : data.drop cs = [] := List.drop_eq_nil_of_le hlen
        rw [hdrop, chunkList_nil]
        trivial
      · have htl : (data.take cs).length = cs := by
          rw [List.length_take]
          omega
        rw [htl]
        apply ih
        rw [List.length_drop]
        have : 0 < data.length := List.length_pos.mpr hd
        omega

theorem chunkList_sum {cs : Nat} (hcs : 0 < cs) :
    ∀ (n : Nat) (data : List Nat) (base : Nat), data.length ≤ n →
    ((chunkList cs base data).map (fun c => c.2.length)).sum = data.length := by
  intro n
  induction n with
  | zero =>
    intro data base hn
    have hm : data = [] := List.eq_nil_of_length_eq_zero (Nat.le_zero.mp hn)
    subst hm
    rw [chunkList_nil]
    simp
  | succ n ih =>
    intro data base hn
    by_cases hd : data = []
    · subst hd
      rw [chunkList_nil]
      simp
    · rw [chunkList_cons base hd (by omega)]
      have hpos : 0 < data.length := List.length_pos.mpr hd
      have hdl : (data.drop cs).length ≤ n := by
        rw [List.length_drop]
        omega
      have htl : (data.take cs).length = min cs data.length := List.length_take _ _
      have hrec := ih (data.drop cs) (base + cs) hdl
      simp only [List.map_cons, List.sum_cons, hrec, List.length_drop, htl]
      omega

theorem chunkList_full {cs : Nat} (hcs : 0 < cs) :
    ∀ (n : Nat) (data : List Nat) (base : Nat), data.length ≤ n →
    cs ∣ data.length →
    ∀ c ∈ chunkList cs base data, c.2.length = cs := by
  intro n
  induction n with
  | zero =>
    intro data base hn _ c hc
    have hm : data = [] := List.eq_nil_of_length_eq_zero (Nat.le_zero.mp hn)
    subst hm
    rw [chunkList_nil] at hc
    simp at hc
  | succ n ih =>
    intro data base hn hdvd c hc
    by_cases hd : data = []
    · subst hd
      rw [chunkList_nil] at hc
      simp at hc
    · rw [chunkList_cons base hd (by omega)] at hc
      have hpos : 0 < data.length := List.length_pos.mpr hd
      have hge : cs ≤ data.length := Nat.le_of_dvd hpos hdvd
      rcases List.mem_cons.mp hc with rfl | hc'
      · show (data.take cs).length = cs
        rw [List.length_take]
        omega
      · have hdl : (data.drop cs).length ≤ n := by
          rw [List.length_drop]
          omega
        have hdvd' : cs ∣ (data.drop cs).length := by
          rw [List.length_drop]
          exact Nat.dvd_sub' hdvd (Nat.dvd_refl cs)
        exact ih (data.drop cs) (base + cs) hdl hdvd' c hc'

theorem runChunks_nil (rc mB b0 cs : Nat) (inner : SessionInner)
    (closed : Bool) :
    runChunks rc mB b0 cs inner closed [] = ⟨inner, closed, [], .allOk⟩ := rfl

theorem runChunks_cons_success (rc mB b0 cs : Nat) (inner : SessionInner)
    (closed : Bool) (chunk : Nat × List Nat) (script : List AppendResult)
    (rest : List ((Nat × List Nat) × List AppendResult))
    (h : (runLoop rc mB 0 b0 script).outcome = .success) :
    runChunks rc mB b0 cs inner closed ((chunk, script) :: rest) =
      ⟨(runChunks rc mB b0 cs
          { inner with
            bytes_transferred := inner.bytes_transferred + chunk.2.length,
            completion := inner.completion.complete_block
              (inner.start_offset + chunk.1) chunk.2.length }
          (closed || (chunk.2.length != cs)) rest).inner,
       (runChunks rc mB b0 cs
          { inner with
            bytes_transferred := inner.bytes_transferred + chunk.2.length,
            completion := inner.completion.complete_block
              (inner.start_offset + chunk.1) chunk.2.length }
          (closed || (chunk.2.length != cs)) rest).closed,
       ⟨⟨inner.start_offset + chunk.1, chunk.2.length != cs⟩, chunk.2.length⟩ ::
         (runChunks rc mB b0 cs
          { inner with
            bytes_transferred := inner.bytes_transferred + chunk.2.length,
            completion := inner.completion.complete_block
              (inner.start_offset + chunk.1) chunk.2.length }
          (closed || (chunk.2.length != cs)) rest).calls,
       (runChunks rc mB b0 cs
          { inner with
            bytes_transferred := inner.bytes_transferred + chunk.2.length,
            completion := inner.completion.complete_block
              (inner.start_offset + chunk.1) chunk.2.length }
          (closed || (chunk.2.length != cs)) rest).status⟩ := by
  show (if (runLoop rc mB 0 b0 script).outcome = .success then _ else _) = _
  rw [if_pos h]

/-- The dispatcher under all-success scripts and in-order consecutive
chunks, starting from a tracker with an empty buffer: the run appends every
chunk, accumulates the chunk lengths into `bytes_transferred`, and advances
the contiguous cursor over all the data. -/
theorem runChunks_all_ok (rc mB b0 cs : Nat) :
    ∀ (pairs : List ((Nat × List Nat) × List AppendResult))
      (inner : SessionInner) (closed : Bool) (o : Nat),
    (∀ p ∈ pairs, (runLoop rc mB 0 b0 p.2).outcome = .success) →
    ConsecutiveFrom o (pairs.map Prod.fst) →
    inner.completion = ⟨inner.start_offset + o, []⟩ →
    runChunks rc mB b0 cs inner closed pairs =
      ⟨⟨inner.session_id, inner.start_offset,
        inner.bytes_transferred + (pairs.map (fun p => p.1.2.length)).sum,
        ⟨inner.start_offset + o + (pairs.map (fun p => p.1.2.length)).sum, []⟩⟩,
       closed || pairs.any (fun p => p.1.2.length != cs),
       pairs.map (fun p =>
         ⟨⟨inner.start_offset + p.1.1, p.1.2.length != cs⟩, p.1.2.length⟩),
       .allOk⟩ := by
  intro pairs
  induction pairs with
  | nil =>
    intro inner closed o _ _ hcompl
    rw [runChunks_nil]
    obtain ⟨sid, so, bt, comp⟩ := inner
    simp only at hcompl
    subst hcompl
    simp
  | cons p rest ih =>
    obtain ⟨chunk, script⟩ := p
    intro inner closed o hall hcons hcompl
    have hsucc : (runLoop rc mB 0 b0 script).outcome = .success :=
      hall (chunk, script) (by simp)
    obtain ⟨hoff, hcons'⟩ := hcons
    obtain ⟨sid, so, bt, comp⟩ := inner
    simp only at hcompl hoff
    subst hcompl
    rw [runChunks_cons_success rc mB b0 cs _ closed chunk script rest hsucc]
    have hcb : (CompletionTracker.complete_block ⟨so + o, []⟩
        (so + chunk.1) chunk.2.length) = ⟨so + (o + chunk.2.length), []⟩ := by
      rw [hoff]
      simp only [CompletionTracker.complete_block, if_pos rfl]
      rw [show drainLoop (so + o + chunk.2.length) [] =
        (so + o + chunk.2.length, []) from drainLoop_none (by rfl)]
      simp [Nat.add_assoc]
    simp only [hcb]
    rw [ih ⟨sid, so, bt + chunk.2.length, ⟨so + (o + chunk.2.length), []⟩⟩
      (closed || (chunk.2.length != cs)) (o + chunk.2.length)
      (fun q hq => hall q (by simp [hq])) hcons' rfl]
    simp only [List.map_cons, List.sum_cons, List.any_cons]
    refine congrArg₂ (fun a b => DispatchResult.mk a b _ _) ?_ ?_
    · simp [Nat.add_assoc]
    · simp [Bool.or_assoc]

/-- Claim C10 (confirmed). If every dispatched chunk succeeds, no chunk was marked
closing (the source length is an exact multiple of the chunk size
`BLOCK_SIZE * blocks_per_request`), and the final explicit empty closing
append fails after exhausting its retries, `upload` still returns `Ok`
with the final contiguous length; the close failure is only logged. -/
theorem C10_close_failure_still_ok (rc mB b0 bpr sid start e : Nat)
    (data : List Nat) (scripts : List (List AppendResult))
    (closeScript : List AppendResult)
    (hbpr : 0 < bpr)
    (hdvd : (BLOCK_SIZE * bpr) ∣ data.length)
    (hlen : (chunkList (BLOCK_SIZE * bpr) 0 data).length = scripts.length)
    (hall : ∀ s ∈ scripts, (runLoop rc mB 0 b0 s).outcome = .success)
    (hclose : (runLoop rc mB 0 b0 closeScript).outcome = .failed e) :
    (uploadModel rc mB b0 bpr (SessionInner.resume sid start) data scripts
      closeScript).result = .ok (start + data.length) := by
  have hcs : 0 < BLOCK_SIZE * bpr := Nat.mul_pos BLOCK_SIZE_pos hbpr
  have hfst : ((chunkList (BLOCK_SIZE * bpr) 0 data).zip scripts).map Prod.fst
      = chunkList (BLOCK_SIZE * bpr) 0 data :=
    List.map_fst_zip _ _ (Nat.le_of_eq hlen)
  have hall' : ∀ p ∈ (chunkList (BLOCK_SIZE * bpr) 0 data).zip scripts,
      (runLoop rc mB 0 b0 p.2).outcome = .success := by
    intro p hp
    obtain ⟨p1, p2⟩ := p
    exact hall p2 (List.of_mem_zip hp).2
  have hcons : ConsecutiveFrom 0
      (((chunkList (BLOCK_SIZE * bpr) 0 data).zip scripts).map Prod.fst) := by
    rw [hfst]
    exact chunkList_consecutive hcs data.length data 0 (Nat.le_refl _)
  have hsum : (((chunkList (BLOCK_SIZE * bpr) 0 data).zip scripts).map
      (fun p => p.1.2.length)).sum = data.length := by
    have hmm : ((chunkList (BLOCK_SIZE * bpr) 0 data).zip scripts).map
        (fun p => p.1.2.length) =
        (((chunkList (BLOCK_SIZE * bpr) 0 data).zip scripts).map Prod.fst).map
          (fun c => c.2.length) := by
      rw [List.map_map]
      rfl
    rw [hmm, hfst]
    exact chunkList_sum hcs data.length data 0 (Nat.le_refl _)
  have hany : ((chunkList (BLOCK_SIZE * bpr) 0 data).zip scripts).any
      (fun p => p.1.2.length != BLOCK_SIZE * bpr) = false := by
    rw [List.any_eq_false]
    intro p hp
    have hmem : p.1 ∈ chunkList (BLOCK_SIZE * bpr) 0 data := by
      rw [← hfst]
      exact List.mem_map_of_mem Prod.fst hp
    have hfull := chunkList_full hcs data.length data 0 (Nat.le_refl _) hdvd
      p.1 hmem
    simp [hfull]
  have hrun := runChunks_all_ok rc mB b0 (BLOCK_SIZE * bpr)
    ((chunkList (BLOCK_SIZE * bpr) 0 data).zip scripts)
    (SessionInner.resume sid start) false 0 hall' hcons
    (by simp [SessionInner.resume, CompletionTracker.resume_from])
  rw [hsum, hany] at hrun
  simp only [uploadModel]
  rw [hrun]
  simp only [Bool.or_false]
  show (match (runLoop rc mB 0 b0 closeScript).outcome with
    | .pending => _
    | _ => _ : UploadRun).result = _
  rw [hclose]
  simp [SessionInner.resume, SessionInner.complete_up_to]

theorem C10_close_failure_still_ok_witness :
    0 < 1 ∧ (BLOCK_SIZE * 1) ∣ ([] : List Nat).length ∧
    (chunkList (BLOCK_SIZE * 1) 0 []).length
      = ([] : List (List AppendResult)).length ∧
    (∀ s ∈ ([] : List (List AppendResult)),
      (runLoop 3 2 0 1 s).outcome = .success) ∧
    (runLoop 3 2 0 1 [.err 9, .err 9, .err 9]).outcome = .failed 9 ∧
    (uploadModel 3 2 1 1 (SessionInner.resume 0 5) [] []
      [.err 9, .err 9, .err 9]).result = .ok (5 + ([] : List Nat).length) :=
  ⟨by decide, by decide, by decide, by decide, by decide,
    C10_close_failure_still_ok 3 2 1 1 0 5 9 [] [] [.err 9, .err 9, .err 9]
      (by decide) (by decide) (by decide) (by decide) (by decide)⟩

end DropboxToolbox
